import Mathlib

/-!
Verification of the trading-desk core (backtest.py, risk.py, live.py).

Shallow embedding conventions:
* A pandas `Series` of floats is a `List (Option ℚ)`; `none` stands for a
  missing value (float NaN), `dropna` removes them.  Exact rational
  arithmetic replaces float arithmetic.
* Python dicts (insertion ordered, unique keys) are association lists
  `List (String × _)`; `dict.get(k, d)` is `lookupD`, `dict.get(k)` is
  `lookupOpt`.
* `float("nan")` sentinels returned by the metric functions become `none`
  of an `Option` result type.
* The fixed-point text formatting used when journalling values
  (`f"{v:.2f}"`) and the parse on re-read are abstracted to the identity;
  no claim concerns the formatting itself.
-/

namespace TradingDesk

/-- `Series.dropna()`: keep the non-missing entries, in order. -/
def dropna {α : Type} (xs : List (Option α)) : List α :=
  xs.filterMap id

/-- `np.sign` on an exact rational (the NaN case is handled at call sites
by the `Option` layer). -/
def sign (q : ℚ) : ℚ :=
  if 0 < q then 1 else if q < 0 then -1 else 0

/-- `Series.pct_change()`: simple returns `close_t / close_{t-1} - 1`, with
a missing first entry.  Matches pandas on an already `dropna`-ed series. -/
def pct_change : List ℚ → List (Option ℚ)
  | [] => []
  | x :: xs => none :: List.zipWith (fun prev cur => some (cur / prev - 1)) (x :: xs) xs

/-- `Series.shift(1)`: a missing value enters at the front, the last value
drops off; the length is preserved. -/
def shiftOpt {α : Type} : List (Option α) → List (Option α)
  | [] => []
  | x :: xs => none :: (x :: xs).dropLast

/-- `df["signal"] = -np.sign(df["ret"].shift(1)).fillna(0.0)` from
`short_term_reversal_backtest` (backtest.py line 77): `-sign` of the
one-period-lagged return, missing entries resolving to 0. -/
def bt_signal (close : List ℚ) : List ℚ :=
  (shiftOpt (pct_change close)).map (fun r =>
    match r with
    | none => 0
    | some v => -sign v)

/-- `df["turnover"] = (df["signal"] - df["signal"].shift(1)).abs().fillna(0.0)`
(backtest.py line 83): the first entry (difference against a missing prior)
resolves to 0. -/
def bt_turnover (sig : List ℚ) : List ℚ :=
  match sig with
  | [] => []
  | s :: rest => 0 :: List.zipWith (fun prev cur => |cur - prev|) (s :: rest) rest

/-- `df["pnl"] = (df["signal"] * df["ret"]).fillna(0.0) - df["cost"]`
(backtest.py line 89): a missing return contributes 0 to the product. -/
def bt_pnl (sig : List ℚ) (ret : List (Option ℚ)) (cost : List ℚ) : List ℚ :=
  List.zipWith (fun sr c => sr - c)
    (List.zipWith (fun s r =>
      match r with
      | none => 0
      | some v => s * v) sig ret) cost

/-- Helper for `Series.cumprod` applied to `1 + pnl`: the accumulator is the
running product. -/
def cumprodGo (acc : ℚ) : List ℚ → List ℚ
  | [] => []
  | x :: xs => (acc * (1 + x)) :: cumprodGo (acc * (1 + x)) xs

/-- `df["equity"] = (1.0 + df["pnl"]).cumprod()` (backtest.py line 90),
seeded at 1.0. -/
def cumprodOnePlus (xs : List ℚ) : List ℚ :=
  cumprodGo 1 xs

/-- The columns of the DataFrame built by `short_term_reversal_backtest`. -/
structure BacktestFrame where
  close : List ℚ
  ret : List (Option ℚ)
  signal : List ℚ
  turnover : List ℚ
  cost : List ℚ
  pnl : List ℚ
  equity : List ℚ

/-- `short_term_reversal_backtest(prices, cost_bps)` (backtest.py lines
57-92): drop missing prices, then build the ret / signal / turnover /
cost / pnl / equity columns. -/
def short_term_reversal_backtest (prices : List (Option ℚ)) (cost_bps : ℚ) :
    BacktestFrame :=
  let close := dropna prices
  let ret := pct_change close
  let signal := bt_signal close
  let turnover := bt_turnover signal
  let cost := turnover.map (fun t => cost_bps / 10000 * t)
  let pnl := bt_pnl signal ret cost
  { close := close
    ret := ret
    signal := signal
    turnover := turnover
    cost := cost
    pnl := pnl
    equity := cumprodOnePlus pnl }

/-- `latest_reversal_signal(prices)` (backtest.py lines 44-54): 0 when
fewer than 2 non-missing prices remain, otherwise the last entry of the
same signal column the backtest builds (`signal.iloc[-1]`). -/
def latest_reversal_signal (prices : List (Option ℚ)) : ℚ :=
  let close := dropna prices
  if close.length < 2 then 0
  else ((bt_signal close).getLast?).getD 0

/-- Mean of a list of rationals (`Series.mean()`). -/
def listMean (xs : List ℚ) : ℚ :=
  xs.sum / (xs.length : ℚ)

/-- Sample variance with denominator `n - 1` (the square of
`Series.std(ddof=1)`). -/
def sampleVar (xs : List ℚ) : ℚ :=
  ((xs.map (fun x => (x - listMean xs) ^ 2)).sum) / ((xs.length : ℚ) - 1)

/-- `annualized_sharpe(daily_returns)` (backtest.py lines 16-26).  The
float NaN sentinel becomes `none`.  In exact arithmetic the sample
standard deviation `vol = sqrt(sampleVar)` of 2 or more observations is
never NaN, and `vol == 0` iff the variance is 0, so the code's
`vol == 0 or np.isnan(vol)` test is the `sampleVar r = 0` test.  The
result `some (m, v)` carries the mean and the sample variance; the float
the code returns is `sqrt 252 * m / sqrt v` (stated with `Real.sqrt` in
the theorems). -/
def annualized_sharpe (daily_returns : List (Option ℚ)) : Option (ℚ × ℚ) :=
  let r := dropna daily_returns
  if r.length < 2 then none
  else if sampleVar r = 0 then none
  else some (listMean r, sampleVar r)

/-- Helper for `Series.cummax()`: the accumulator is the running peak. -/
def cummaxGo (m : ℚ) : List ℚ → List ℚ
  | [] => []
  | y :: ys => (max m y) :: cummaxGo (max m y) ys

/-- `ec.cummax()`: running maximum up to each point. -/
def cummax : List ℚ → List ℚ
  | [] => []
  | x :: xs => x :: cummaxGo x xs

/-- The float values that can flow out of the drawdown pipeline: NaN,
a signed infinity (produced by float division by a zero running peak),
or a finite value (exact rational here). -/
inductive Flt where
  | nan : Flt
  | neginf : Flt
  | posinf : Flt
  | val (q : ℚ) : Flt
deriving DecidableEq

/-- One entry of `(ec / peak) - 1.0` in float semantics: the curve and
its running peak are NaN-free (post-`dropna`), so the entry is NaN
exactly for `0.0 / 0.0`, a signed infinity for `x / 0.0` with `x ≠ 0`
(numpy float division), and otherwise the finite value `x / p - 1`
(subtracting 1 preserves NaN and infinities). -/
def ddEntry (x p : ℚ) : Flt :=
  if p = 0 then
    (if x = 0 then Flt.nan else if 0 < x then Flt.posinf else Flt.neginf)
  else Flt.val (x / p - 1)

/-- Binary step of `Series.min()` with pandas' default `skipna=True`:
NaN operands are skipped, `-inf` is below everything, `+inf` above every
non-NaN value, finite values compare as rationals. -/
def fltMin : Flt → Flt → Flt
  | Flt.nan, b => b
  | a, Flt.nan => a
  | Flt.neginf, _ => Flt.neginf
  | _, Flt.neginf => Flt.neginf
  | a, Flt.posinf => a
  | Flt.posinf, b => b
  | Flt.val a, Flt.val b => Flt.val (min a b)

/-- `Series.min()` with `skipna=True`: the minimum of the non-NaN
entries, NaN when there is none (pandas returns NaN for an all-NaN
series).  Folding `fltMin` from a NaN seed implements exactly that. -/
def fltListMin (l : List Flt) : Flt :=
  l.foldl fltMin Flt.nan

/-- `v ≤ 0` on float values: `-inf` or a nonpositive finite value
(NaN and `+inf` are not ≤ 0). -/
def fltNonPos : Flt → Prop
  | Flt.neginf => True
  | Flt.val q => q ≤ 0
  | _ => False

/-- `max_drawdown(equity_curve)` (backtest.py lines 29-38): NaN (the
undefined sentinel, `Flt.nan`) when the curve is empty after dropping
missing values, otherwise `dd.min()` over
`dd = (ec / ec.cummax()) - 1.0` in float semantics: division by a zero
running peak yields NaN (for a zero entry) or a signed infinity, and the
final `min` skips NaN entries, returning NaN when every entry is NaN. -/
def max_drawdown (equity_curve : List (Option ℚ)) : Flt :=
  match dropna equity_curve with
  | [] => Flt.nan
  | x :: xs =>
      fltListMin (List.zipWith ddEntry (x :: xs) (cummax (x :: xs)))

/-- The four kinds of error message `validate_targets` appends; the
payload carries the data interpolated into the message text (message
formatting itself, including the sort in `', '.join(sorted(unknown))`,
is abstracted). -/
inductive RiskError where
  | unknownSymbols (syms : List String)
  | shortingNotAllowed (sym : String) (w : ℚ)
  | positionTooLarge (sym : String) (w : ℚ) (maxPos : ℚ)
  | grossExposureExceeded (gross : ℚ) (maxGross : ℚ)
deriving DecidableEq

/-- `validate_targets(targets, universe, max_position_pct,
max_gross_exposure)` (risk.py lines 9-44): unknown-symbol check, long-only
check, per-name cap check, gross-exposure check with a `1e-9` tolerance;
`ok` is `errors == []`. -/
def validate_targets (targets : List (String × ℚ)) (univ : List String)
    (max_position_pct max_gross_exposure : ℚ) : Bool × List RiskError :=
  let unknown := (targets.map Prod.fst).filter (fun s => decide (s ∉ univ))
  let e1 : List RiskError :=
    if unknown = [] then [] else [RiskError.unknownSymbols unknown]
  let e2 : List RiskError := targets.filterMap (fun p =>
    if p.2 < 0 then some (RiskError.shortingNotAllowed p.1 p.2) else none)
  let e3 : List RiskError := targets.filterMap (fun p =>
    if p.2 > max_position_pct then
      some (RiskError.positionTooLarge p.1 p.2 max_position_pct) else none)
  let gross := (targets.map Prod.snd).sum
  let e4 : List RiskError :=
    if gross > max_gross_exposure + 1 / 1000000000 then
      [RiskError.grossExposureExceeded gross max_gross_exposure] else []
  let errors := e1 ++ e2 ++ e3 ++ e4
  (errors.isEmpty, errors)

/-- `_signals_to_weights(signals, max_position_pct, max_gross_exposure)`
(live.py lines 29-44): symbols with signal 1 are the longs; with no longs
every weight is 0; otherwise each long gets
`min(max_gross_exposure / len(longs), max_position_pct)`, all others 0. -/
def _signals_to_weights (signals : List (String × ℚ))
    (max_position_pct max_gross_exposure : ℚ) : List (String × ℚ) :=
  let longs := (signals.filter (fun p => decide (p.2 = 1))).map Prod.fst
  if longs = [] then signals.map (fun p => (p.1, 0))
  else
    let per_name := min (max_gross_exposure / (longs.length : ℚ)) max_position_pct
    signals.map (fun p => (p.1, if p.1 ∈ longs then per_name else 0))

/-- `dict.get(k, d)` on an association list. -/
def lookupD {β : Type} (l : List (String × β)) (k : String) (d : β) : β :=
  match l with
  | [] => d
  | (a, b) :: rest => if k = a then b else lookupD rest k d

/-- `dict.get(k)` on an association list. -/
def lookupOpt {β : Type} (l : List (String × β)) (k : String) : Option β :=
  match l with
  | [] => none
  | (a, b) :: rest => if k = a then some b else lookupOpt rest k

/-- Python 3 `round` to an integer: round-half-to-even. -/
def pyround (q : ℚ) : ℤ :=
  let f := ⌊q⌋
  let r := q - (f : ℚ)
  if r < 1 / 2 then f
  else if 1 / 2 < r then f + 1
  else if f % 2 = 0 then f else f + 1

/-- Order side. -/
inductive Side where
  | BUY
  | SELL
deriving DecidableEq

/-- The target-share sizing loop of `run_live` (live.py lines 217-225):
for each universe symbol, 0 when the latest close is missing or ≤ 0
(Python's `if not price or price <= 0` — falsy catches `None` and `0.0`),
else `max(0, round(portfolio_value * weight / price))`. -/
def compute_target_shares (symbols : List String)
    (target_weights latest_closes : List (String × ℚ)) (portfolio_value : ℚ) :
    List (String × ℤ) :=
  symbols.map (fun sym =>
    (sym,
      match lookupOpt latest_closes sym with
      | none => 0
      | some price =>
          if price ≤ 0 then 0
          else max 0 (pyround (portfolio_value * lookupD target_weights sym 0 / price))))

/-- The trade-diff loop of `run_live` (live.py lines 227-235): per universe
symbol, `delta = target - current`; BUY `delta` when positive, SELL
`-delta` when negative, nothing when zero. -/
def compute_trades (symbols : List String)
    (current_positions target_shares : List (String × ℤ)) :
    List (String × Side × ℤ) :=
  symbols.filterMap (fun sym =>
    let delta := lookupD target_shares sym 0 - lookupD current_positions sym 0
    if 0 < delta then some (sym, Side.BUY, delta)
    else if delta < 0 then some (sym, Side.SELL, -delta)
    else none)

/-- Outcome of `broker.historical_bars` for one symbol, as `run_live`
(live.py lines 178-199) distinguishes them: `fetchFailed` is `bars is
None`, `noBars` is `len(bars) == 0`, `noCloseColumn` is a frame without a
`close` column, and `withClose closes` carries the close column (missing
entries included). -/
inductive FetchResult where
  | fetchFailed : FetchResult
  | noBars : FetchResult
  | noCloseColumn : FetchResult
  | withClose (closes : List (Option ℚ)) : FetchResult

/-- Whether `run_live` takes one of its degrade-and-warn branches for this
fetch outcome. -/
def fetch_degraded : FetchResult → Bool
  | FetchResult.withClose _ => false
  | _ => true

/-- The body of the per-symbol fetch loop of `run_live` (live.py lines
178-199) for one symbol: the three degraded outcomes yield signal 0 and no
recorded close; with a close column, `prices = close.astype(float).dropna()`,
the signal is `latest_reversal_signal(prices)` and the recorded close is
`prices.iloc[-1]` — which raises (the `Except.error` case) when every
close is missing. -/
def symbol_step : FetchResult → Except String (ℚ × Option ℚ)
  | FetchResult.fetchFailed => Except.ok (0, none)
  | FetchResult.noBars => Except.ok (0, none)
  | FetchResult.noCloseColumn => Except.ok (0, none)
  | FetchResult.withClose closes =>
      match (dropna closes).getLast? with
      | none => Except.error "single positional indexer is out-of-bounds"
      | some c =>
          Except.ok (latest_reversal_signal ((dropna closes).map some), some c)

/-- The per-symbol fetch loop of `run_live` (live.py lines 178-199): folds
`symbol_step` over the universe, accumulating the `signals` dict, the
`latest_closes` dict (no entry for degraded symbols; `run_live` lines
202-204 later default those to 0.0, modelled by `lookupD _ _ 0`), and the
list of symbols warned about. -/
def fetch_loop (symbols : List String) (fetch : String → FetchResult) :
    Except String (List (String × ℚ) × List (String × ℚ) × List String) :=
  match symbols with
  | [] => Except.ok ([], [], [])
  | s :: rest =>
      match symbol_step (fetch s) with
      | Except.error e => Except.error e
      | Except.ok (sig, cl) =>
          match fetch_loop rest fetch with
          | Except.error e => Except.error e
          | Except.ok (sigs, closes, warns) =>
              Except.ok ((s, sig) :: sigs,
                (match cl with
                 | some c => (s, c) :: closes
                 | none => closes),
                (if fetch_degraded (fetch s) then s :: warns else warns))

/-- `_append_snapshot_log(portfolio_value)` (live.py lines 90-118) acting
on the explicit journal state: `history` is the list of portfolio values
of the rows already in the snapshot file, in file order (what
`_read_snapshot_history`, live.py lines 74-87, returns).  With no prior
row both P&L fields are blank (`none`); otherwise daily P&L compares
against the last row and running P&L against the first row.  The new row
is appended. -/
def _append_snapshot_log (history : List ℚ) (portfolio_value : ℚ) :
    (Option ℚ × Option ℚ) × List ℚ :=
  match history.head?, history.getLast? with
  | some first, some prev =>
      ((some (portfolio_value - prev), some (portfolio_value - first)),
        history ++ [portfolio_value])
  | _, _ => ((none, none), history ++ [portfolio_value])

/-! ## Helper lemmas -/

theorem length_pct_change (xs : List ℚ) : (pct_change xs).length = xs.length := by
  cases xs with
  | nil => rfl
  | cons x xs =>
      simp only [pct_change, List.length_cons, List.length_zipWith]
      omega

theorem length_shiftOpt {α : Type} (xs : List (Option α)) :
    (shiftOpt xs).length = xs.length := by
  cases xs with
  | nil => rfl
  | cons x xs =>
      simp only [shiftOpt, List.length_cons, List.length_dropLast]
      omega

theorem length_bt_signal (close : List ℚ) :
    (bt_signal close).length = close.length := by
  simp [bt_signal, length_shiftOpt, length_pct_change]

theorem length_bt_turnover (sig : List ℚ) :
    (bt_turnover sig).length = sig.length := by
  cases sig with
  | nil => rfl
  | cons s rest =>
      simp only [bt_turnover, List.length_cons, List.length_zipWith]
      omega

theorem length_bt_pnl (sig : List ℚ) (ret : List (Option ℚ)) (cost : List ℚ)
    (h1 : ret.length = sig.length) (h2 : cost.length = sig.length) :
    (bt_pnl sig ret cost).length = sig.length := by
  simp [bt_pnl, List.length_zipWith, h1, h2]

theorem length_cumprodGo (xs : List ℚ) :
    ∀ acc : ℚ, (cumprodGo acc xs).length = xs.length := by
  induction xs with
  | nil => intro acc; rfl
  | cons x xs ih => intro acc; simp [cumprodGo, ih]

theorem getD_map {α β : Type} (f : α → β) (d1 : α) (d2 : β) :
    ∀ (l : List α) (t : ℕ), t < l.length →
      (l.map f).getD t d2 = f (l.getD t d1) := by
  intro l
  induction l with
  | nil => intro t ht; simp at ht
  | cons a l ih =>
      intro t ht
      cases t with
      | zero => simp
      | succ t =>
          simp only [List.map_cons, List.getD_cons_succ]
          exact ih t (by simpa using ht)

theorem getD_zipWith {α β γ : Type} (f : α → β → γ) (d1 : α) (d2 : β) (d3 : γ) :
    ∀ (a : List α) (b : List β) (t : ℕ), t < a.length → t < b.length →
      (List.zipWith f a b).getD t d3 = f (a.getD t d1) (b.getD t d2) := by
  intro a
  induction a with
  | nil => intro b t ht _; simp at ht
  | cons x xs ih =>
      intro b t ht hb
      cases b with
      | nil => simp at hb
      | cons y ys =>
          cases t with
          | zero => simp
          | succ t =>
              simp only [List.zipWith_cons_cons, List.getD_cons_succ]
              exact ih ys t (by simpa using ht) (by simpa using hb)

theorem getD_cumprodGo :
    ∀ (xs : List ℚ) (acc : ℚ) (t : ℕ), t < xs.length →
      (cumprodGo acc xs).getD t 1
        = acc * ((xs.take (t + 1)).map (fun p => 1 + p)).prod := by
  intro xs
  induction xs with
  | nil => intro acc t ht; simp at ht
  | cons x xs ih =>
      intro acc t ht
      cases t with
      | zero => simp [cumprodGo]
      | succ t =>
          simp only [cumprodGo, List.getD_cons_succ, List.take_succ_cons,
            List.map_cons, List.prod_cons]
          rw [ih (acc * (1 + x)) t (by simpa using ht)]
          ring

/-! ## C1: the latest signal refines the backtest signal column -/

/-- C1: for every price series with at least 2 non-missing price points,
`latest_reversal_signal(prices)` equals the last element of the `signal`
column produced by `short_term_reversal_backtest(prices)`. -/
theorem claim_C1 (prices : List (Option ℚ)) (cost_bps : ℚ)
    (h : 2 ≤ (dropna prices).length) :
    (short_term_reversal_backtest prices cost_bps).signal.getLast?
      = some (latest_reversal_signal prices) := by
  have hne : bt_signal (dropna prices) ≠ [] := by
    intro hnil
    have hl := length_bt_signal (dropna prices)
    rw [hnil] at hl
    simp only [List.length_nil] at hl
    omega
  have hns : ((bt_signal (dropna prices)).getLast?).isSome := by
    rw [List.getLast?_isSome]
    exact hne
  obtain ⟨x, hx⟩ := Option.isSome_iff_exists.mp hns
  simp only [short_term_reversal_backtest, latest_reversal_signal]
  rw [if_neg (by omega), hx]
  simp

/-- C1 witness: the theorem applied to the concrete price series
`[100, 102, 101]` with `cost_bps = 5`. -/
theorem claim_C1_witness :
    2 ≤ (dropna [some (100 : ℚ), some 102, some 101]).length
    ∧ (short_term_reversal_backtest [some (100 : ℚ), some 102, some 101] 5).signal.getLast?
        = some (latest_reversal_signal [some (100 : ℚ), some 102, some 101]) :=
  ⟨by decide, claim_C1 [some 100, some 102, some 101] 5 (by decide)⟩

/-! ## C2: backtest row arithmetic -/

theorem turnover_getD_zero (sig : List ℚ) (h : sig ≠ []) :
    (bt_turnover sig).getD 0 0 = 0 := by
  cases sig with
  | nil => exact absurd rfl h
  | cons s rest => rfl

theorem turnover_getD_succ (sig : List ℚ) (t : ℕ) (h : t + 1 < sig.length) :
    (bt_turnover sig).getD (t + 1) 0 = |sig.getD (t + 1) 0 - sig.getD t 0| := by
  cases sig with
  | nil => simp at h
  | cons s rest =>
      simp only [bt_turnover, List.getD_cons_succ]
      rw [getD_zipWith (fun prev cur => |cur - prev|) 0 0 0 (s :: rest) rest t
        (by simp only [List.length_cons] at h ⊢; omega)
        (by simp only [List.length_cons] at h; omega)]

theorem pct_change_getD_zero (c : List ℚ) (h : c ≠ []) :
    (pct_change c).getD 0 none = none := by
  cases c with
  | nil => exact absurd rfl h
  | cons x xs => rfl

theorem pnl_getD (sig : List ℚ) (ret : List (Option ℚ)) (cost : List ℚ) (t : ℕ)
    (h1 : t < sig.length) (h2 : t < ret.length) (h3 : t < cost.length) :
    (bt_pnl sig ret cost).getD t 0
      = (match ret.getD t none with
         | none => 0
         | some r => sig.getD t 0 * r) - cost.getD t 0 := by
  unfold bt_pnl
  rw [getD_zipWith (fun sr c => sr - c) 0 0 0 _ cost t
    (by simp only [List.length_zipWith]; omega) h3]
  rw [getD_zipWith _ 0 none 0 sig ret t h1 h2]

/-- C2: in every row `t` of `short_term_reversal_backtest`:
`turnover_t = |signal_t - signal_{t-1}|` with the first turnover 0,
`cost_t = (cost_bps / 10000) * turnover_t`,
`pnl_t = signal_t * return_t - cost_t` with a missing return contributing
0 (so the first row's pnl is 0), and `equity_t` is the cumulative product
of `(1 + pnl)` over rows up to `t`, seeded at 1. -/
theorem claim_C2 (prices : List (Option ℚ)) (cost_bps : ℚ) (f : BacktestFrame)
    (n : ℕ) (hf : f = short_term_reversal_backtest prices cost_bps)
    (hn : n = f.close.length) :
    (f.ret.length = n ∧ f.signal.length = n ∧ f.turnover.length = n
      ∧ f.cost.length = n ∧ f.pnl.length = n ∧ f.equity.length = n)
    ∧ (0 < n → f.turnover.getD 0 0 = 0)
    ∧ (∀ t : ℕ, t + 1 < n →
        f.turnover.getD (t + 1) 0
          = |f.signal.getD (t + 1) 0 - f.signal.getD t 0|)
    ∧ (∀ t : ℕ, t < n →
        f.cost.getD t 0 = cost_bps / 10000 * f.turnover.getD t 0)
    ∧ (∀ t : ℕ, t < n →
        f.pnl.getD t 0
          = (match f.ret.getD t none with
             | none => 0
             | some r => f.signal.getD t 0 * r) - f.cost.getD t 0)
    ∧ (0 < n → f.ret.getD 0 none = none ∧ f.pnl.getD 0 0 = 0)
    ∧ (∀ t : ℕ, t < n →
        f.equity.getD t 1 = ((f.pnl.take (t + 1)).map (fun p => 1 + p)).prod) := by
  set c := dropna prices with hc
  have hclose : f.close = c := by rw [hf]; exact rfl
  have hret : f.ret = pct_change c := by rw [hf]; exact rfl
  have hsig : f.signal = bt_signal c := by rw [hf]; exact rfl
  have hturn : f.turnover = bt_turnover (bt_signal c) := by rw [hf]; exact rfl
  have hcost : f.cost = (bt_turnover (bt_signal c)).map (fun t => cost_bps / 10000 * t) := by
    rw [hf]
    exact rfl
  have hpnl : f.pnl = bt_pnl (bt_signal c) (pct_change c) f.cost := by rw [hf]; exact rfl
  have hequity : f.equity = cumprodGo 1 f.pnl := by rw [hf]; exact rfl
  have hn2 : n = c.length := by rw [hn, hclose]
  clear hn
  rename' hn2 => hn
  have lsig : (bt_signal c).length = c.length := length_bt_signal c
  have lret : (pct_change c).length = c.length := length_pct_change c
  have lturn : (bt_turnover (bt_signal c)).length = c.length := by
    rw [length_bt_turnover, lsig]
  have lcost : f.cost.length = c.length := by
    rw [hcost, List.length_map, lturn]
  have lpnl : f.pnl.length = c.length := by
    rw [hpnl, length_bt_pnl _ _ _ (by rw [lret, lsig]) (by rw [lcost, lsig]), lsig]
  refine ⟨⟨by rw [hret, lret]; exact hn.symm, by rw [hsig, lsig]; exact hn.symm,
    by rw [hturn, lturn]; exact hn.symm, by rw [lcost]; exact hn.symm,
    by rw [lpnl]; exact hn.symm,
    by rw [hequity, length_cumprodGo, lpnl]; exact hn.symm⟩, ?_, ?_, ?_, ?_, ?_, ?_⟩
  · intro hpos
    rw [hturn]
    refine turnover_getD_zero _ ?_
    intro hnil
    rw [hnil] at lsig
    simp only [List.length_nil] at lsig
    omega
  · intro t ht
    rw [hturn, hsig, turnover_getD_succ _ t (by rw [lsig]; omega)]
  · intro t ht
    rw [hcost, hturn, getD_map _ 0 0 _ t (by rw [lturn]; omega)]
  · intro t ht
    rw [hpnl, hret, hsig, pnl_getD _ _ _ t (by rw [lsig]; omega)
      (by rw [lret]; omega) (by rw [lcost]; omega)]
  · intro hpos
    have hr0 : f.ret.getD 0 none = none := by
      rw [hret]
      refine pct_change_getD_zero c ?_
      intro hnil
      rw [hnil] at hn
      simp only [List.length_nil] at hn
      omega
    refine ⟨hr0, ?_⟩
    have hp := pnl_getD (bt_signal c) (pct_change c) f.cost 0
      (by rw [lsig]; omega) (by rw [lret]; omega) (by rw [lcost]; omega)
    rw [hpnl, hp]
    rw [hret] at hr0
    rw [hr0]
    have hc0 : f.cost.getD 0 0 = cost_bps / 10000 * (bt_turnover (bt_signal c)).getD 0 0 := by
      rw [hcost, getD_map _ 0 0 _ 0 (by rw [lturn]; omega)]
    have ht0 : (bt_turnover (bt_signal c)).getD 0 0 = 0 := by
      refine turnover_getD_zero _ ?_
      intro hnil
      rw [hnil] at lsig
      simp only [List.length_nil] at lsig
      omega
    rw [hc0, ht0]
    ring
  · intro t ht
    rw [hequity, getD_cumprodGo f.pnl 1 t (by rw [lpnl]; omega), one_mul]

/-- C2 witness: the turnover identity at row 1 of the concrete backtest of
`[100, 102, 101]` with `cost_bps = 5`. -/
theorem claim_C2_witness :
    0 + 1 < (short_term_reversal_backtest [some (100 : ℚ), some 102, some 101] 5).close.length
    ∧ (short_term_reversal_backtest [some (100 : ℚ), some 102, some 101] 5).turnover.getD (0 + 1) 0
      = |(short_term_reversal_backtest [some (100 : ℚ), some 102, some 101] 5).signal.getD (0 + 1) 0
          - (short_term_reversal_backtest [some (100 : ℚ), some 102, some 101] 5).signal.getD 0 0| := by
  refine ⟨by decide, ?_⟩
  exact (claim_C2 [some (100 : ℚ), some 102, some 101] 5
    (short_term_reversal_backtest [some (100 : ℚ), some 102, some 101] 5)
    (short_term_reversal_backtest [some (100 : ℚ), some 102, some 101] 5).close.length
    rfl rfl).2.2.1 0 (by decide)

/-! ## C7: annualized Sharpe sentinel -/

theorem sampleVar_nonneg (xs : List ℚ) (h : 2 ≤ xs.length) : 0 ≤ sampleVar xs := by
  unfold sampleVar
  apply div_nonneg
  · apply List.sum_nonneg
    intro x hx
    obtain ⟨y, hy, rfl⟩ := List.mem_map.mp hx
    positivity
  · have h2 : (2 : ℚ) ≤ (xs.length : ℚ) := by exact_mod_cast h
    linarith

/-- C7: `annualized_sharpe` returns the explicit undefined sentinel
(`none`) exactly when, after dropping missing values, fewer than 2
observations remain or the sample standard deviation (`ddof = 1`) is
zero; otherwise it returns `sqrt 252 * mean / stddev`, carried as the
pair `(mean, sample variance)` with value `sqrt 252 * m / sqrt v`. -/
theorem claim_C7 (daily_returns : List (Option ℚ)) :
    (annualized_sharpe daily_returns = none
      ↔ (dropna daily_returns).length < 2
        ∨ Real.sqrt ((sampleVar (dropna daily_returns) : ℚ) : ℝ) = 0)
    ∧ (∀ m v : ℚ, annualized_sharpe daily_returns = some (m, v) →
        2 ≤ (dropna daily_returns).length
        ∧ Real.sqrt ((v : ℚ) : ℝ) ≠ 0
        ∧ Real.sqrt 252 * ((m : ℚ) : ℝ) / Real.sqrt ((v : ℚ) : ℝ)
            = Real.sqrt 252 * ((listMean (dropna daily_returns) : ℚ) : ℝ)
                / Real.sqrt ((sampleVar (dropna daily_returns) : ℚ) : ℝ)) := by
  by_cases hlen : (dropna daily_returns).length < 2
  · constructor
    · simp [annualized_sharpe, hlen]
    · intro m v hmv
      exfalso
      simp [annualized_sharpe, hlen] at hmv
  · by_cases hvar : sampleVar (dropna daily_returns) = 0
    · constructor
      · simp [annualized_sharpe, hlen, hvar]
      · intro m v hmv
        exfalso
        simp [annualized_sharpe, hlen, hvar] at hmv
    · have hpos : 0 < sampleVar (dropna daily_returns) :=
        lt_of_le_of_ne (sampleVar_nonneg _ (le_of_not_lt hlen)) (Ne.symm hvar)
      have hsq : Real.sqrt ((sampleVar (dropna daily_returns) : ℚ) : ℝ) ≠ 0 := by
        rw [Real.sqrt_ne_zero']
        exact_mod_cast hpos
      constructor
      · constructor
        · intro hnone
          exfalso
          simp [annualized_sharpe, hlen, hvar] at hnone
        · intro hor
          rcases hor with hh | hh
          · exact absurd hh hlen
          · exact absurd hh hsq
      · intro m v hmv
        simp only [annualized_sharpe, if_neg hlen, if_neg hvar, Option.some.injEq,
          Prod.mk.injEq] at hmv
        obtain ⟨hm, hv⟩ := hmv
        rw [← hm, ← hv]
        exact ⟨le_of_not_lt hlen, hsq, rfl⟩

/-- C7 witness: the theorem applied to the concrete return series
`[0, 1]`, whose mean and sample variance are both `1/2`. -/
theorem claim_C7_witness :
    2 ≤ (dropna [some (0 : ℚ), some 1]).length
    ∧ Real.sqrt ((((1 : ℚ) / 2) : ℚ) : ℝ) ≠ 0
    ∧ Real.sqrt 252 * ((((1 : ℚ) / 2) : ℚ) : ℝ) / Real.sqrt ((((1 : ℚ) / 2) : ℚ) : ℝ)
        = Real.sqrt 252 * ((listMean (dropna [some (0 : ℚ), some 1]) : ℚ) : ℝ)
            / Real.sqrt ((sampleVar (dropna [some (0 : ℚ), some 1]) : ℚ) : ℝ) :=
  (claim_C7 [some (0 : ℚ), some 1]).2 (1 / 2) (1 / 2)
    (by norm_num [annualized_sharpe, dropna, List.filterMap_cons, sampleVar, listMean])

/-! ## C8: max drawdown -/

theorem cummaxGo_of_chain :
    ∀ (ys : List ℚ) (m : ℚ), List.Chain (· ≤ ·) m ys → cummaxGo m ys = ys := by
  intro ys
  induction ys with
  | nil => intro m _; rfl
  | cons y ys ih =>
      intro m hch
      rw [List.chain_cons] at hch
      obtain ⟨hmy, hch⟩ := hch
      simp only [cummaxGo, max_eq_right hmy]
      rw [ih y hch]

theorem zipWith_self {α β : Type} (f : α → α → β) :
    ∀ l : List α, List.zipWith f l l = l.map (fun a => f a a) := by
  intro l
  induction l with
  | nil => rfl
  | cons x xs ih => simp [List.zipWith_cons_cons, ih]

theorem ddEntry_eq_nan_iff (x p : ℚ) :
    ddEntry x p = Flt.nan ↔ (p = 0 ∧ x = 0) := by
  unfold ddEntry
  split_ifs with h1 h2 h3 <;> simp_all

theorem ddEntry_self (z : ℚ) :
    ddEntry z z = if z = 0 then Flt.nan else Flt.val 0 := by
  unfold ddEntry
  by_cases hz : z = 0
  · simp [hz]
  · simp [hz, div_self hz]

theorem fltMin_eq_nan_iff (a b : Flt) :
    fltMin a b = Flt.nan ↔ (a = Flt.nan ∧ b = Flt.nan) := by
  cases a <;> cases b <;> simp [fltMin]

theorem foldl_fltMin_eq_nan (l : List Flt) :
    ∀ a : Flt, (l.foldl fltMin a = Flt.nan
      ↔ (a = Flt.nan ∧ ∀ v ∈ l, v = Flt.nan)) := by
  induction l with
  | nil => intro a; simp
  | cons u l ih =>
      intro a
      rw [List.foldl_cons, ih (fltMin a u), fltMin_eq_nan_iff]
      simp only [List.forall_mem_cons]
      tauto

theorem fltListMin_eq_nan_iff (l : List Flt) :
    fltListMin l = Flt.nan ↔ ∀ v ∈ l, v = Flt.nan := by
  rw [fltListMin, foldl_fltMin_eq_nan l Flt.nan]
  simp

theorem fltMin_nonpos_left :
    ∀ a b : Flt, fltNonPos a → fltNonPos (fltMin a b) := by
  intro a b ha
  cases a with
  | nan => exact absurd ha (by simp [fltNonPos])
  | posinf => exact absurd ha (by simp [fltNonPos])
  | neginf => cases b <;> simp [fltMin, fltNonPos]
  | val q =>
      cases b with
      | nan => simpa [fltMin, fltNonPos] using ha
      | neginf => simp [fltMin, fltNonPos]
      | posinf => simpa [fltMin, fltNonPos] using ha
      | val r =>
          simp only [fltMin, fltNonPos] at ha ⊢
          exact le_trans (min_le_left q r) ha

theorem fltMin_nonpos_right :
    ∀ a b : Flt, fltNonPos b → fltNonPos (fltMin a b) := by
  intro a b hb
  cases b with
  | nan => exact absurd hb (by simp [fltNonPos])
  | posinf => exact absurd hb (by simp [fltNonPos])
  | neginf => cases a <;> simp [fltMin, fltNonPos]
  | val q =>
      cases a with
      | nan => simpa [fltMin, fltNonPos] using hb
      | neginf => simp [fltMin, fltNonPos]
      | posinf => simpa [fltMin, fltNonPos] using hb
      | val r =>
          simp only [fltMin, fltNonPos] at hb ⊢
          exact le_trans (min_le_right r q) hb

theorem foldl_fltMin_nonpos (l : List Flt) :
    ∀ a : Flt, fltNonPos a → fltNonPos (l.foldl fltMin a) := by
  induction l with
  | nil => intro a ha; exact ha
  | cons u l ih =>
      intro a ha
      exact ih (fltMin a u) (fltMin_nonpos_left a u ha)

theorem foldl_fltMin_nonpos_of_mem :
    ∀ (l : List Flt) (a v : Flt), v ∈ l → fltNonPos v →
      fltNonPos (l.foldl fltMin a) := by
  intro l
  induction l with
  | nil => intro a v hv; simp at hv
  | cons u l ih =>
      intro a v hv hnp
      rcases List.mem_cons.mp hv with rfl | hv
      · exact foldl_fltMin_nonpos l (fltMin a v) (fltMin_nonpos_right a v hnp)
      · exact ih (fltMin a u) v hv hnp

theorem fltListMin_nonpos_of_mem (l : List Flt) (v : Flt) (hv : v ∈ l)
    (hnp : fltNonPos v) : fltNonPos (fltListMin l) :=
  foldl_fltMin_nonpos_of_mem l Flt.nan v hv hnp

theorem all_nan_iff_all_zero :
    ∀ ys : List ℚ,
      ((∀ v ∈ List.zipWith ddEntry ys (cummaxGo 0 ys), v = Flt.nan)
        ↔ ∀ y ∈ ys, y = 0) := by
  intro ys
  induction ys with
  | nil => simp [cummaxGo]
  | cons y ys ih =>
      simp only [cummaxGo, List.zipWith_cons_cons, List.forall_mem_cons]
      constructor
      · rintro ⟨hh, ht⟩
        rw [ddEntry_eq_nan_iff] at hh
        obtain ⟨_, hy⟩ := hh
        subst hy
        refine ⟨rfl, ?_⟩
        have hms : max (0 : ℚ) 0 = 0 := max_self 0
        rw [hms] at ht
        exact ih.mp ht
      · rintro ⟨hy, hz⟩
        subst hy
        have hms : max (0 : ℚ) 0 = 0 := max_self 0
        rw [hms]
        refine ⟨?_, ih.mpr hz⟩
        rw [ddEntry_eq_nan_iff]
        exact ⟨rfl, rfl⟩

theorem all_nan_iff_all_zero_full (x : ℚ) (xs : List ℚ) :
    ((∀ v ∈ List.zipWith ddEntry (x :: xs) (cummax (x :: xs)), v = Flt.nan)
      ↔ ∀ y ∈ x :: xs, y = 0) := by
  simp only [cummax, List.zipWith_cons_cons, List.forall_mem_cons]
  constructor
  · rintro ⟨hh, ht⟩
    rw [ddEntry_eq_nan_iff] at hh
    obtain ⟨hx, _⟩ := hh
    subst hx
    exact ⟨rfl, (all_nan_iff_all_zero xs).mp ht⟩
  · rintro ⟨hx, hz⟩
    subst hx
    refine ⟨?_, (all_nan_iff_all_zero xs).mpr hz⟩
    rw [ddEntry_eq_nan_iff]
    exact ⟨rfl, rfl⟩

theorem exists_nonpos_dd :
    ∀ ys : List ℚ, (∃ y ∈ ys, y ≠ 0) →
      ∃ v ∈ List.zipWith ddEntry ys (cummaxGo 0 ys), fltNonPos v := by
  intro ys
  induction ys with
  | nil =>
      rintro ⟨y, hy, _⟩
      simp at hy
  | cons y ys ih =>
      rintro ⟨z, hz, hz0⟩
      by_cases hy : y = 0
      · have hzy : z ∈ ys := by
          rcases List.mem_cons.mp hz with rfl | h
          · exact absurd hy hz0
          · exact h
        obtain ⟨v, hv, hnp⟩ := ih ⟨z, hzy, hz0⟩
        subst hy
        refine ⟨v, ?_, hnp⟩
        simp only [cummaxGo, List.zipWith_cons_cons]
        have hms : max (0 : ℚ) 0 = 0 := max_self 0
        rw [hms]
        exact List.mem_cons_of_mem _ hv
      · refine ⟨ddEntry y (max 0 y), ?_, ?_⟩
        · simp only [cummaxGo, List.zipWith_cons_cons]
          exact List.mem_cons_self _ _
        · by_cases hpos : 0 < y
          · rw [max_eq_right (le_of_lt hpos), ddEntry_self, if_neg hy]
            simp [fltNonPos]
          · have hle : y ≤ 0 := not_lt.mp hpos
            rw [max_eq_left hle]
            unfold ddEntry
            rw [if_pos rfl, if_neg hy, if_neg hpos]
            simp [fltNonPos]

theorem foldl_fltMin_nan_or_val0 :
    ∀ (l : List Flt) (a : Flt), (∀ v ∈ l, v = Flt.nan ∨ v = Flt.val 0) →
      (a = Flt.nan ∨ a = Flt.val 0) →
      (l.foldl fltMin a = Flt.nan ∨ l.foldl fltMin a = Flt.val 0) := by
  intro l
  induction l with
  | nil => intro a _ ha; exact ha
  | cons u l ih =>
      intro a hall ha
      refine ih (fltMin a u) (fun v hv => hall v (List.mem_cons_of_mem u hv)) ?_
      have hu := hall u (List.mem_cons_self u l)
      rcases ha with rfl | rfl <;> rcases hu with hu | hu <;> rw [hu] <;>
        simp [fltMin, min_self]

/-- C8 counterexample to the claim as stated: on the nonempty,
monotonically non-decreasing one-point curve `[0]` the code computes
`0.0 / 0.0` (NaN) and then the NaN-skipping min of an all-NaN drawdown
series, so it returns the NaN sentinel for a nonempty curve — not the 0
the monotone clause demands, and not a number ≤ 0. -/
theorem claim_C8_counterexample :
    List.Chain' (fun a b : ℚ => a ≤ b) (dropna [some (0 : ℚ)])
    ∧ dropna [some (0 : ℚ)] ≠ []
    ∧ max_drawdown [some (0 : ℚ)] = Flt.nan
    ∧ Flt.nan ≠ Flt.val 0 := by
  refine ⟨by simp [dropna], by simp [dropna], ?_, by simp⟩
  norm_num [max_drawdown, dropna, List.filterMap_cons, cummax, cummaxGo,
    fltListMin, ddEntry, fltMin]

/-- C8 (amended): `max_drawdown` returns the explicit undefined sentinel
(float NaN) exactly when, after dropping missing values, the equity curve
is empty or all its values are 0 (every drawdown entry is then NaN);
otherwise it returns the NaN-skipping `min((equity / running peak) - 1)`,
which is always ≤ 0 (a nonpositive finite value or `-inf`) and equals 0
for every monotonically non-decreasing equity curve. -/
theorem claim_C8 (equity_curve : List (Option ℚ)) :
    (max_drawdown equity_curve = Flt.nan
      ↔ (dropna equity_curve = [] ∨ ∀ x ∈ dropna equity_curve, x = 0))
    ∧ (∀ (y : ℚ) (ys : List ℚ), dropna equity_curve = y :: ys →
        max_drawdown equity_curve
          = fltListMin (List.zipWith ddEntry (y :: ys) (cummax (y :: ys))))
    ∧ (max_drawdown equity_curve ≠ Flt.nan → fltNonPos (max_drawdown equity_curve))
    ∧ (List.Chain' (fun a b : ℚ => a ≤ b) (dropna equity_curve) →
        max_drawdown equity_curve ≠ Flt.nan →
        max_drawdown equity_curve = Flt.val 0) := by
  cases hd : dropna equity_curve with
  | nil =>
      have h0 : max_drawdown equity_curve = Flt.nan := by
        simp [max_drawdown, hd]
      refine ⟨by simp [h0], ?_, ?_, ?_⟩
      · intro y ys heq
        exact absurd heq (by simp)
      · intro hne
        exact absurd h0 hne
      · intro _ hne
        exact absurd h0 hne
  | cons x xs =>
      have h1 : max_drawdown equity_curve
          = fltListMin (List.zipWith ddEntry (x :: xs) (cummax (x :: xs))) := by
        simp [max_drawdown, hd]
      refine ⟨?_, ?_, ?_, ?_⟩
      · rw [h1, fltListMin_eq_nan_iff, all_nan_iff_all_zero_full]
        constructor
        · exact fun h => Or.inr h
        · rintro (h | h)
          · exact absurd h (List.cons_ne_nil x xs)
          · exact h
      · intro y ys heq
        injection heq with hy hys
        subst hy
        subst hys
        exact h1
      · intro hne
        rw [h1] at hne ⊢
        have hne2 : ¬ ∀ y ∈ x :: xs, y = 0 := by
          intro hall
          exact hne ((fltListMin_eq_nan_iff _).mpr
            ((all_nan_iff_all_zero_full x xs).mpr hall))
        push_neg at hne2
        obtain ⟨z, hz, hz0⟩ := hne2
        by_cases hx : x = 0
        · have hzxs : z ∈ xs := by
            rcases List.mem_cons.mp hz with rfl | h
            · exact absurd hx hz0
            · exact h
          subst hx
          obtain ⟨v, hv, hnp⟩ := exists_nonpos_dd xs ⟨z, hzxs, hz0⟩
          refine fltListMin_nonpos_of_mem _ v ?_ hnp
          simp only [cummax, List.zipWith_cons_cons]
          exact List.mem_cons_of_mem _ hv
        · refine fltListMin_nonpos_of_mem _ (ddEntry x x) ?_ ?_
          · simp only [cummax, List.zipWith_cons_cons]
            exact List.mem_cons_self _ _
          · rw [ddEntry_self, if_neg hx]
            simp [fltNonPos]
      · intro hchain hne
        rw [h1] at hne ⊢
        have hch : List.Chain (fun a b : ℚ => a ≤ b) x xs := hchain
        have hcm : cummax (x :: xs) = x :: xs := by
          simp only [cummax]
          rw [cummaxGo_of_chain xs x hch]
        rw [hcm, zipWith_self ddEntry (x :: xs)] at hne ⊢
        have hall : ∀ v ∈ (x :: xs).map (fun a => ddEntry a a),
            v = Flt.nan ∨ v = Flt.val 0 := by
          intro v hv
          obtain ⟨z, hz, rfl⟩ := List.mem_map.mp hv
          rw [ddEntry_self]
          by_cases hz0 : z = 0
          · rw [if_pos hz0]
            exact Or.inl rfl
          · rw [if_neg hz0]
            exact Or.inr rfl
        have hor := foldl_fltMin_nan_or_val0 ((x :: xs).map (fun a => ddEntry a a))
          Flt.nan hall (Or.inl rfl)
        rcases hor with h | h
        · exact absurd h hne
        · exact h

/-- C8 witness: the amended monotone clause applied to the concrete
non-decreasing curve `[1, 2]`. -/
theorem claim_C8_witness :
    max_drawdown [some (1 : ℚ), some 2] = Flt.val 0 :=
  (claim_C8 [some (1 : ℚ), some 2]).2.2.2
    (by norm_num [dropna, List.filterMap_cons, List.chain'_cons, List.chain'_singleton])
    (by
      intro h
      have hcon := ((claim_C8 [some (1 : ℚ), some 2]).1).mp h
      norm_num [dropna, List.filterMap_cons] at hcon
      exact List.noConfusion hcon)

/-! ## C3: risk validator -/

theorem vt_fst (targets : List (String × ℚ)) (univ : List String) (mp mg : ℚ) :
    (validate_targets targets univ mp mg).1
      = ((validate_targets targets univ mp mg).2).isEmpty := rfl

theorem mem_filterMap_ite {γ : Type} (targets : List (String × ℚ))
    (cond : String × ℚ → Prop) [DecidablePred cond] (mk : String × ℚ → γ) (x : γ) :
    (x ∈ targets.filterMap (fun p => if cond p then some (mk p) else none))
      ↔ ∃ p ∈ targets, cond p ∧ x = mk p := by
  rw [List.mem_filterMap]
  constructor
  · rintro ⟨p, hp, hf⟩
    by_cases hc : cond p
    · rw [if_pos hc] at hf
      exact ⟨p, hp, hc, (Option.some.inj hf).symm⟩
    · rw [if_neg hc] at hf
      exact Option.noConfusion hf
  · rintro ⟨p, hp, hc, rfl⟩
    exact ⟨p, hp, by rw [if_pos hc]⟩

theorem vt_mem (targets : List (String × ℚ)) (univ : List String) (mp mg : ℚ)
    (x : RiskError) :
    x ∈ (validate_targets targets univ mp mg).2
      ↔ (((targets.map Prod.fst).filter (fun s => decide (s ∉ univ)) ≠ []
            ∧ x = RiskError.unknownSymbols
                ((targets.map Prod.fst).filter (fun s => decide (s ∉ univ))))
        ∨ (∃ p ∈ targets, p.2 < 0 ∧ x = RiskError.shortingNotAllowed p.1 p.2)
        ∨ (∃ p ∈ targets, p.2 > mp ∧ x = RiskError.positionTooLarge p.1 p.2 mp)
        ∨ ((targets.map Prod.snd).sum > mg + 1 / 1000000000
            ∧ x = RiskError.grossExposureExceeded ((targets.map Prod.snd).sum) mg)) := by
  simp only [validate_targets, List.mem_append]
  rw [mem_filterMap_ite targets (fun p => p.2 < 0)
      (fun p => RiskError.shortingNotAllowed p.1 p.2) x,
    mem_filterMap_ite targets (fun p => p.2 > mp)
      (fun p => RiskError.positionTooLarge p.1 p.2 mp) x]
  constructor
  · intro h
    rcases h with ((h | h) | h) | h
    · left
      split_ifs at h with hu
      · simp at h
      · simp only [List.mem_singleton] at h
        exact ⟨hu, h⟩
    · right
      left
      exact h
    · right
      right
      left
      exact h
    · right
      right
      right
      split_ifs at h with hg
      · simp only [List.mem_singleton] at h
        exact ⟨hg, h⟩
      · simp at h
  · intro h
    rcases h with ⟨hne, hx⟩ | h | h | ⟨hg, hx⟩
    · left
      left
      left
      rw [if_neg hne]
      simp [hx]
    · left
      left
      right
      exact h
    · left
      right
      exact h
    · right
      rw [if_pos hg]
      simp [hx]

theorem vt_ok_of (targets : List (String × ℚ)) (univ : List String) (mp mg : ℚ)
    (h1 : ∀ s ∈ targets.map Prod.fst, s ∈ univ)
    (h2 : ∀ p ∈ targets, 0 ≤ p.2 ∧ p.2 ≤ mp)
    (h3 : (targets.map Prod.snd).sum ≤ mg + 1 / 1000000000) :
    validate_targets targets univ mp mg = (true, []) := by
  have he1 : (targets.map Prod.fst).filter (fun s => decide (s ∉ univ)) = [] := by
    rw [List.filter_eq_nil_iff]
    intro s hs
    simp only [decide_eq_true_eq]
    exact fun hn => hn (h1 s hs)
  have he2 : targets.filterMap (fun p =>
      if p.2 < 0 then some (RiskError.shortingNotAllowed p.1 p.2) else none) = [] := by
    rw [List.filterMap_eq_nil_iff]
    intro p hp
    rw [if_neg (not_lt.mpr (h2 p hp).1)]
  have he3 : targets.filterMap (fun p =>
      if p.2 > mp then some (RiskError.positionTooLarge p.1 p.2 mp) else none) = [] := by
    rw [List.filterMap_eq_nil_iff]
    intro p hp
    rw [if_neg (not_lt.mpr (h2 p hp).2)]
  simp only [validate_targets, he1, he2, he3, if_neg (not_lt.mpr h3)]
  simp

/-- C3: `validate_targets` returns `ok = true` iff its error list is
empty; the error list has one entry per violated check, each evaluated
independently; weight sums at or within `1e-10` of the gross cap pass,
a sum `0.01` above it fails with a gross-exposure error; and the concrete
scenario `{SPY: 0.6, QQQ: -0.1, IWM: 0.5}` with caps `0.3` / `1.0` fails
with a shorting violation for QQQ and max-position violations for SPY and
IWM. -/
theorem claim_C3 (targets : List (String × ℚ)) (univ : List String) (mp mg : ℚ) :
    ((validate_targets targets univ mp mg).1 = true
        ↔ (validate_targets targets univ mp mg).2 = [])
    ∧ ((∃ syms, RiskError.unknownSymbols syms ∈ (validate_targets targets univ mp mg).2)
        ↔ ∃ s ∈ targets.map Prod.fst, s ∉ univ)
    ∧ (∀ s w, RiskError.shortingNotAllowed s w ∈ (validate_targets targets univ mp mg).2
        ↔ ((s, w) ∈ targets ∧ w < 0))
    ∧ (∀ s w, RiskError.positionTooLarge s w mp ∈ (validate_targets targets univ mp mg).2
        ↔ ((s, w) ∈ targets ∧ w > mp))
    ∧ ((∃ g, RiskError.grossExposureExceeded g mg ∈ (validate_targets targets univ mp mg).2)
        ↔ (targets.map Prod.snd).sum > mg + 1 / 1000000000)
    ∧ ((∀ s ∈ targets.map Prod.fst, s ∈ univ) → (∀ p ∈ targets, 0 ≤ p.2 ∧ p.2 ≤ mp) →
        (targets.map Prod.snd).sum = mg →
        (validate_targets targets univ mp mg).1 = true)
    ∧ ((∀ s ∈ targets.map Prod.fst, s ∈ univ) → (∀ p ∈ targets, 0 ≤ p.2 ∧ p.2 ≤ mp) →
        (targets.map Prod.snd).sum = mg + 1 / 10000000000 →
        (validate_targets targets univ mp mg).1 = true)
    ∧ ((targets.map Prod.snd).sum = mg + 1 / 100 →
        (validate_targets targets univ mp mg).1 = false
        ∧ RiskError.grossExposureExceeded ((targets.map Prod.snd).sum) mg
            ∈ (validate_targets targets univ mp mg).2)
    ∧ ((validate_targets [("SPY", 6 / 10), ("QQQ", -(1 / 10)), ("IWM", 5 / 10)]
          ["SPY", "QQQ", "IWM"] (3 / 10) 1).1 = false
        ∧ RiskError.shortingNotAllowed "QQQ" (-(1 / 10))
            ∈ (validate_targets [("SPY", 6 / 10), ("QQQ", -(1 / 10)), ("IWM", 5 / 10)]
                ["SPY", "QQQ", "IWM"] (3 / 10) 1).2
        ∧ RiskError.positionTooLarge "SPY" (6 / 10) (3 / 10)
            ∈ (validate_targets [("SPY", 6 / 10), ("QQQ", -(1 / 10)), ("IWM", 5 / 10)]
                ["SPY", "QQQ", "IWM"] (3 / 10) 1).2
        ∧ RiskError.positionTooLarge "IWM" (5 / 10) (3 / 10)
            ∈ (validate_targets [("SPY", 6 / 10), ("QQQ", -(1 / 10)), ("IWM", 5 / 10)]
                ["SPY", "QQQ", "IWM"] (3 / 10) 1).2) := by
  refine ⟨?_, ?_, ?_, ?_, ?_, ?_, ?_, ?_, ?_⟩
  · rw [vt_fst]
    exact List.isEmpty_iff
  · constructor
    · rintro ⟨syms, hs⟩
      rw [vt_mem] at hs
      rcases hs with ⟨hne, _⟩ | ⟨p, _, _, h⟩ | ⟨p, _, _, h⟩ | ⟨_, h⟩
      · rcases List.exists_mem_of_ne_nil _ hne with ⟨s, hs⟩
        rw [List.mem_filter] at hs
        exact ⟨s, hs.1, by simpa using hs.2⟩
      · exact RiskError.noConfusion h
      · exact RiskError.noConfusion h
      · exact RiskError.noConfusion h
    · rintro ⟨s, hs, hno⟩
      refine ⟨(targets.map Prod.fst).filter (fun s => decide (s ∉ univ)), ?_⟩
      rw [vt_mem]
      refine Or.inl ⟨?_, rfl⟩
      exact List.ne_nil_of_mem (List.mem_filter.mpr ⟨hs, by simpa using hno⟩)
  · intro s w
    rw [vt_mem]
    constructor
    · rintro (⟨_, h⟩ | ⟨p, hp, hc, h⟩ | ⟨p, _, _, h⟩ | ⟨_, h⟩)
      · exact RiskError.noConfusion h
      · obtain ⟨hs, hw⟩ := RiskError.shortingNotAllowed.inj h
        rw [hs, hw]
        exact ⟨hp, hc⟩
      · exact RiskError.noConfusion h
      · exact RiskError.noConfusion h
    · rintro ⟨hmem, hw⟩
      exact Or.inr (Or.inl ⟨(s, w), hmem, hw, rfl⟩)
  · intro s w
    rw [vt_mem]
    constructor
    · rintro (⟨_, h⟩ | ⟨p, _, _, h⟩ | ⟨p, hp, hc, h⟩ | ⟨_, h⟩)
      · exact RiskError.noConfusion h
      · exact RiskError.noConfusion h
      · obtain ⟨hs, hw, _⟩ := RiskError.positionTooLarge.inj h
        rw [hs, hw]
        exact ⟨hp, hc⟩
      · exact RiskError.noConfusion h
    · rintro ⟨hmem, hw⟩
      exact Or.inr (Or.inr (Or.inl ⟨(s, w), hmem, hw, rfl⟩))
  · constructor
    · rintro ⟨g, hg⟩
      rw [vt_mem] at hg
      rcases hg with ⟨_, h⟩ | ⟨p, _, _, h⟩ | ⟨p, _, _, h⟩ | ⟨hgt, _⟩
      · exact RiskError.noConfusion h
      · exact RiskError.noConfusion h
      · exact RiskError.noConfusion h
      · exact hgt
    · intro hgt
      refine ⟨(targets.map Prod.snd).sum, ?_⟩
      rw [vt_mem]
      exact Or.inr (Or.inr (Or.inr ⟨hgt, rfl⟩))
  · intro hu hw hsum
    have := vt_ok_of targets univ mp mg hu hw (by rw [hsum]; norm_num)
    rw [this]
  · intro hu hw hsum
    have := vt_ok_of targets univ mp mg hu hw (by rw [hsum]; norm_num)
    rw [this]
  · intro hsum
    have hgt : (targets.map Prod.snd).sum > mg + 1 / 1000000000 := by
      rw [hsum]
      norm_num
    have hmem : RiskError.grossExposureExceeded ((targets.map Prod.snd).sum) mg
        ∈ (validate_targets targets univ mp mg).2 := by
      rw [vt_mem]
      exact Or.inr (Or.inr (Or.inr ⟨hgt, rfl⟩))
    refine ⟨?_, hmem⟩
    rw [vt_fst]
    cases h : (validate_targets targets univ mp mg).2 with
    | nil => rw [h] at hmem; simp at hmem
    | cons a l => rfl
  · have hshort : RiskError.shortingNotAllowed "QQQ" (-(1 / 10))
        ∈ (validate_targets [("SPY", 6 / 10), ("QQQ", -(1 / 10)), ("IWM", 5 / 10)]
            ["SPY", "QQQ", "IWM"] (3 / 10) 1).2 := by
      rw [vt_mem]
      refine Or.inr (Or.inl ⟨("QQQ", -(1 / 10)), by simp, by norm_num, rfl⟩)
    have hspy : RiskError.positionTooLarge "SPY" (6 / 10) (3 / 10)
        ∈ (validate_targets [("SPY", 6 / 10), ("QQQ", -(1 / 10)), ("IWM", 5 / 10)]
            ["SPY", "QQQ", "IWM"] (3 / 10) 1).2 := by
      rw [vt_mem]
      refine Or.inr (Or.inr (Or.inl ⟨("SPY", 6 / 10), by simp, by norm_num, rfl⟩))
    have hiwm : RiskError.positionTooLarge "IWM" (5 / 10) (3 / 10)
        ∈ (validate_targets [("SPY", 6 / 10), ("QQQ", -(1 / 10)), ("IWM", 5 / 10)]
            ["SPY", "QQQ", "IWM"] (3 / 10) 1).2 := by
      rw [vt_mem]
      refine Or.inr (Or.inr (Or.inl ⟨("IWM", 5 / 10), by simp, by norm_num, rfl⟩))
    refine ⟨?_, hshort, hspy, hiwm⟩
    rw [vt_fst]
    cases h : (validate_targets [("SPY", 6 / 10), ("QQQ", -(1 / 10)), ("IWM", 5 / 10)]
        ["SPY", "QQQ", "IWM"] (3 / 10) 1).2 with
    | nil => rw [h] at hshort; simp at hshort
    | cons a l => rfl

/-- C3 witness: the exact-cap pass clause applied to the concrete targets
`{SPY: 0.5, IWM: 0.5}` with caps `0.5` / `1.0` (weights sum to exactly the
gross cap). -/
theorem claim_C3_witness :
    (validate_targets [("SPY", (1 : ℚ) / 2), ("IWM", 1 / 2)] ["SPY", "IWM"]
        (1 / 2) 1).1 = true :=
  (claim_C3 [("SPY", (1 : ℚ) / 2), ("IWM", 1 / 2)] ["SPY", "IWM"] (1 / 2) 1).2.2.2.2.2.1
    (by intro s hs; simpa using hs)
    (by
      intro p hp
      simp only [List.mem_cons, List.not_mem_nil, or_false] at hp
      rcases hp with rfl | rfl <;> norm_num)
    (by norm_num)

/-! ## C4 and C6: signal-to-weight conversion and its safety -/

theorem eq_of_fst_eq_of_nodup {β : Type} :
    ∀ (l : List (String × β)) (p q : String × β), (l.map Prod.fst).Nodup →
      p ∈ l → q ∈ l → p.1 = q.1 → p = q := by
  intro l
  induction l with
  | nil => intro p q _ hp; simp at hp
  | cons a rest ih =>
      intro p q hnd hp hq hfst
      simp only [List.map_cons, List.nodup_cons] at hnd
      obtain ⟨ha, hnd⟩ := hnd
      rcases List.mem_cons.mp hp with hpa | hpr
      · rcases List.mem_cons.mp hq with hqa | hqr
        · rw [hpa, hqa]
        · exfalso
          apply ha
          have hm : q.1 ∈ rest.map Prod.fst := List.mem_map_of_mem Prod.fst hqr
          rw [← hfst, hpa] at hm
          exact hm
      · rcases List.mem_cons.mp hq with hqa | hqr
        · exfalso
          apply ha
          have hm : p.1 ∈ rest.map Prod.fst := List.mem_map_of_mem Prod.fst hpr
          rw [hfst, hqa] at hm
          exact hm
        · exact ih p q hnd hpr hqr hfst

theorem stw_map_form (signals : List (String × ℚ)) (mp mg : ℚ)
    (hnd : (signals.map Prod.fst).Nodup) :
    _signals_to_weights signals mp mg
      = signals.map (fun p => (p.1,
          if p.2 = 1 then
            min (mg / ((((signals.filter (fun q => decide (q.2 = 1))).map Prod.fst).length : ℕ) : ℚ)) mp
          else 0)) := by
  unfold _signals_to_weights
  by_cases hl : (signals.filter (fun q => decide (q.2 = 1))).map Prod.fst = []
  · rw [if_pos hl]
    apply List.map_congr_left
    intro p hp
    by_cases hsig : p.2 = 1
    · exfalso
      have hpf : p ∈ signals.filter (fun q => decide (q.2 = 1)) :=
        List.mem_filter.mpr ⟨hp, by simp [hsig]⟩
      have : p.1 ∈ (signals.filter (fun q => decide (q.2 = 1))).map Prod.fst :=
        List.mem_map_of_mem Prod.fst hpf
      rw [hl] at this
      simp at this
    · rw [if_neg hsig]
  · rw [if_neg hl]
    apply List.map_congr_left
    intro p hp
    by_cases hsig : p.2 = 1
    · rw [if_pos hsig, if_pos]
      exact List.mem_map_of_mem Prod.fst (List.mem_filter.mpr ⟨hp, by simp [hsig]⟩)
    · rw [if_neg hsig, if_neg]
      intro hmem
      obtain ⟨q, hq, hq1⟩ := List.mem_map.mp hmem
      rw [List.mem_filter] at hq
      obtain ⟨hqs, hq2⟩ := hq
      have : q = p := eq_of_fst_eq_of_nodup signals q p hnd hqs hp hq1
      rw [this] at hq2
      simp only [decide_eq_true_eq] at hq2
      exact hsig hq2

/-- C4: `_signals_to_weights` assigns
`per_name = min(maxGrossExposure / count(longs), maxPositionPct)` to
exactly the symbols whose signal equals 1 and 0 to every other symbol;
with no longs every symbol gets weight 0 (and no error is raised — the
function is total). -/
theorem claim_C4 (signals : List (String × ℚ)) (mp mg : ℚ)
    (hnd : (signals.map Prod.fst).Nodup) :
    (((signals.filter (fun q => decide (q.2 = 1))).map Prod.fst) = [] →
       _signals_to_weights signals mp mg = signals.map (fun p => (p.1, 0)))
    ∧ _signals_to_weights signals mp mg
        = signals.map (fun p => (p.1,
            if p.2 = 1 then
              min (mg / ((((signals.filter (fun q => decide (q.2 = 1))).map Prod.fst).length : ℕ) : ℚ)) mp
            else 0)) := by
  refine ⟨?_, stw_map_form signals mp mg hnd⟩
  intro hl
  unfold _signals_to_weights
  rw [if_pos hl]

/-- C4 witness: the theorem applied to the concrete signals
`{SPY: 1, QQQ: 0}` with caps `0.3` / `1.0`. -/
theorem claim_C4_witness :
    (((([(("SPY" : String), (1 : ℚ)), ("QQQ", 0)]).filter
          (fun q => decide (q.2 = 1))).map Prod.fst) = [] →
       _signals_to_weights [(("SPY" : String), (1 : ℚ)), ("QQQ", 0)] (3 / 10) 1
         = ([(("SPY" : String), (1 : ℚ)), ("QQQ", 0)]).map (fun p => (p.1, 0)))
    ∧ _signals_to_weights [(("SPY" : String), (1 : ℚ)), ("QQQ", 0)] (3 / 10) 1
        = ([(("SPY" : String), (1 : ℚ)), ("QQQ", 0)]).map (fun p => (p.1,
            if p.2 = 1 then
              min ((1 : ℚ) / ((((([(("SPY" : String), (1 : ℚ)), ("QQQ", 0)]).filter
                  (fun q => decide (q.2 = 1))).map Prod.fst).length : ℕ) : ℚ)) (3 / 10)
            else 0)) :=
  claim_C4 [("SPY", 1), ("QQQ", 0)] (3 / 10) 1 (by simp)

theorem sum_map_ite_per (per : ℚ) :
    ∀ l : List (String × ℚ),
      (l.map (fun p => if p.2 = 1 then per else 0)).sum
        = per * ((l.filter (fun q => decide (q.2 = 1))).length : ℚ) := by
  intro l
  induction l with
  | nil => simp
  | cons a rest ih =>
      rw [List.map_cons, List.sum_cons, List.filter_cons]
      by_cases h : a.2 = 1
      · rw [if_pos h, if_pos (show decide (a.2 = 1) = true by simp [h]),
          List.length_cons, ih]
        push_cast
        ring
      · rw [if_neg h, if_neg (show ¬ decide (a.2 = 1) = true by simp [h]), ih]
        ring

/-- C6: for every signal map keyed exactly by the (duplicate-free)
universe and nonnegative risk limits, `validate_targets` applied to the
output of `_signals_to_weights` returns `(true, [])` — the live loop's
risk-validation abort branch is unreachable for weights produced this
way. -/
theorem claim_C6 (signals : List (String × ℚ)) (symbols : List String) (mp mg : ℚ)
    (hkeys : signals.map Prod.fst = symbols) (hnd : symbols.Nodup)
    (hmp : 0 ≤ mp) (hmg : 0 ≤ mg) :
    validate_targets (_signals_to_weights signals mp mg) symbols mp mg
      = (true, []) := by
  subst hkeys
  rw [stw_map_form signals mp mg hnd]
  simp only [List.length_map]
  set per := min (mg / ((signals.filter (fun q => decide (q.2 = 1))).length : ℚ)) mp
    with hper
  have hper_nonneg : (0 : ℚ) ≤ per := by
    rw [hper]
    exact le_min (div_nonneg hmg (Nat.cast_nonneg _)) hmp
  have hper_le : per ≤ mp := by
    rw [hper]
    exact min_le_right _ mp
  apply vt_ok_of
  · intro s hs
    rw [List.map_map] at hs
    simpa using hs
  · intro p hp
    obtain ⟨q, hq, rfl⟩ := List.mem_map.mp hp
    refine ⟨?_, ?_⟩
    · by_cases h : q.2 = 1
      · simpa [h] using hper_nonneg
      · simp [h]
    · by_cases h : q.2 = 1
      · simpa [h] using hper_le
      · simp [h, hmp]
  · rw [List.map_map]
    have hcomp : (Prod.snd ∘ fun p : String × ℚ => (p.1, if p.2 = 1 then per else 0))
        = fun p : String × ℚ => if p.2 = 1 then per else 0 := rfl
    rw [hcomp, sum_map_ite_per per signals]
    by_cases hc : (signals.filter (fun q => decide (q.2 = 1))).length = 0
    · rw [hc]
      push_cast
      rw [mul_zero]
      linarith
    · have hnpos : (0 : ℚ) < ((signals.filter (fun q => decide (q.2 = 1))).length : ℚ) := by
        exact_mod_cast Nat.pos_of_ne_zero hc
      have hple : per ≤ mg / ((signals.filter (fun q => decide (q.2 = 1))).length : ℚ) := by
        rw [hper]
        exact min_le_left _ _
      have hb : per * ((signals.filter (fun q => decide (q.2 = 1))).length : ℚ) ≤ mg := by
        calc per * ((signals.filter (fun q => decide (q.2 = 1))).length : ℚ)
            ≤ (mg / ((signals.filter (fun q => decide (q.2 = 1))).length : ℚ))
                * ((signals.filter (fun q => decide (q.2 = 1))).length : ℚ) :=
              mul_le_mul_of_nonneg_right hple (le_of_lt hnpos)
          _ = mg := div_mul_cancel₀ mg (ne_of_gt hnpos)
      linarith

/-- C6 witness: the theorem applied to the concrete signals
`{SPY: 1, QQQ: 0}` over universe `[SPY, QQQ]` with caps `0.3` / `1.0`. -/
theorem claim_C6_witness :
    validate_targets (_signals_to_weights [(("SPY" : String), (1 : ℚ)), ("QQQ", 0)]
        (3 / 10) 1) ["SPY", "QQQ"] (3 / 10) 1 = (true, []) :=
  claim_C6 [("SPY", 1), ("QQQ", 0)] ["SPY", "QQQ"] (3 / 10) 1 rfl (by simp)
    (by norm_num) (by norm_num)

/-! ## C5: target shares and trade diff -/

theorem lookupD_map_self {β : Type} (g : String → β) (s : String) (d : β) :
    ∀ symbols : List String, s ∈ symbols →
      lookupD (symbols.map (fun x => (x, g x))) s d = g s := by
  intro symbols
  induction symbols with
  | nil => intro h; simp at h
  | cons a rest ih =>
      intro h
      simp only [List.map_cons, lookupD]
      by_cases hs : s = a
      · rw [if_pos hs, hs]
      · rw [if_neg hs]
        refine ih ?_
        rcases List.mem_cons.mp h with h1 | h1
        · exact absurd h1 hs
        · exact h1

/-- C5: for every universe symbol, target shares are
`max(0, round(portfolioValue * weight / price))`, 0 when the price is
missing or ≤ 0; the trade diff emits BUY `delta` when
`delta = target - current > 0`, SELL `-delta` when `delta < 0`, and
nothing when `delta = 0`; and current positions `{SPY: 100}` against
target shares `{SPY: 150, QQQ: 0}` yield exactly `[(SPY, BUY, 50)]`. -/
theorem claim_C5 (symbols : List String) (target_weights latest_closes : List (String × ℚ))
    (portfolio_value : ℚ) (current_positions target_shares : List (String × ℤ))
    (sym : String) (hmem : sym ∈ symbols) :
    (lookupD (compute_target_shares symbols target_weights latest_closes portfolio_value) sym 0
       = (match lookupOpt latest_closes sym with
          | none => 0
          | some price =>
              if price ≤ 0 then 0
              else max 0 (pyround (portfolio_value * lookupD target_weights sym 0 / price))))
    ∧ (0 < lookupD target_shares sym 0 - lookupD current_positions sym 0 →
        (sym, Side.BUY, lookupD target_shares sym 0 - lookupD current_positions sym 0)
          ∈ compute_trades symbols current_positions target_shares)
    ∧ (lookupD target_shares sym 0 - lookupD current_positions sym 0 < 0 →
        (sym, Side.SELL, -(lookupD target_shares sym 0 - lookupD current_positions sym 0))
          ∈ compute_trades symbols current_positions target_shares)
    ∧ (lookupD target_shares sym 0 - lookupD current_positions sym 0 = 0 →
        ∀ (side : Side) (q : ℤ),
          (sym, side, q) ∉ compute_trades symbols current_positions target_shares)
    ∧ compute_trades ["SPY", "QQQ"] [("SPY", 100)] [("SPY", 150), ("QQQ", 0)]
        = [("SPY", Side.BUY, 50)] := by
  refine ⟨?_, ?_, ?_, ?_, by decide⟩
  · exact lookupD_map_self _ sym 0 symbols hmem
  · intro hpos
    unfold compute_trades
    refine List.mem_filterMap.mpr ⟨sym, hmem, ?_⟩
    rw [if_pos hpos]
  · intro hneg
    unfold compute_trades
    refine List.mem_filterMap.mpr ⟨sym, hmem, ?_⟩
    rw [if_neg (by omega), if_pos hneg]
  · intro h0 side q hcon
    unfold compute_trades at hcon
    obtain ⟨a, ha, hfa⟩ := List.mem_filterMap.mp hcon
    by_cases h1 : 0 < lookupD target_shares a 0 - lookupD current_positions a 0
    · rw [if_pos h1] at hfa
      obtain ⟨ha1, _⟩ := Prod.mk.injEq .. ▸ Option.some.inj hfa
      rw [← ha1] at h0
      omega
    · rw [if_neg h1] at hfa
      by_cases h2 : lookupD target_shares a 0 - lookupD current_positions a 0 < 0
      · rw [if_pos h2] at hfa
        obtain ⟨ha1, _⟩ := Prod.mk.injEq .. ▸ Option.some.inj hfa
        rw [← ha1] at h0
        omega
      · rw [if_neg h2] at hfa
        exact Option.noConfusion hfa

/-- C5 witness: the BUY branch applied to the concrete scenario
(universe `[SPY, QQQ]`, positions `{SPY: 100}`, targets
`{SPY: 150, QQQ: 0}`). -/
theorem claim_C5_witness :
    0 < lookupD [("SPY", (150 : ℤ)), ("QQQ", 0)] "SPY" 0
          - lookupD [("SPY", (100 : ℤ))] "SPY" 0
    ∧ ("SPY", Side.BUY, lookupD [("SPY", (150 : ℤ)), ("QQQ", 0)] "SPY" 0
          - lookupD [("SPY", (100 : ℤ))] "SPY" 0)
        ∈ compute_trades ["SPY", "QQQ"] [("SPY", 100)] [("SPY", 150), ("QQQ", 0)] :=
  ⟨by decide,
    (claim_C5 ["SPY", "QQQ"] [] [] 0 [("SPY", 100)] [("SPY", 150), ("QQQ", 0)]
      "SPY" (by decide)).2.1 (by decide)⟩

/-! ## C9: per-symbol degradation in the live fetch loop -/

theorem lookupD_eq_of_forall_ne {β : Type} (k : String) (d : β) :
    ∀ l : List (String × β), (∀ p ∈ l, p.1 ≠ k) → lookupD l k d = d := by
  intro l
  induction l with
  | nil => intro _; rfl
  | cons a rest ih =>
      intro h
      obtain ⟨a1, a2⟩ := a
      simp only [lookupD]
      rw [if_neg ?_]
      · exact ih (fun p hp => h p (List.mem_cons_of_mem _ hp))
      · intro hk
        exact h (a1, a2) (List.mem_cons_self _ _) hk.symm

theorem fetch_loop_ok (fetch : String → FetchResult) :
    ∀ symbols : List String,
      (∀ s ∈ symbols, ∀ cs, fetch s = FetchResult.withClose cs → dropna cs ≠ []) →
      ∃ sigs closes warns,
        fetch_loop symbols fetch = Except.ok (sigs, closes, warns)
        ∧ sigs.map Prod.fst = symbols
        ∧ (∀ p ∈ closes, ∃ cs, fetch p.1 = FetchResult.withClose cs
              ∧ p.2 = ((dropna cs).getLast?).getD 0)
        ∧ (∀ s ∈ symbols, fetch_degraded (fetch s) = true →
            lookupD sigs s 1 = 0 ∧ lookupD closes s 0 = 0 ∧ s ∈ warns)
        ∧ (∀ s ∈ symbols, ∀ cs, fetch s = FetchResult.withClose cs →
            lookupD sigs s 1 = latest_reversal_signal ((dropna cs).map some)
            ∧ lookupD closes s 0 = ((dropna cs).getLast?).getD 0) := by
  intro symbols
  induction symbols with
  | nil =>
      intro _
      exact ⟨[], [], [], rfl, rfl, by simp, by simp, by simp⟩
  | cons s rest ih =>
      intro hok
      obtain ⟨sigs, closes, warns, hloop, hkeys, hinv, hdeg, hwc⟩ :=
        ih (fun x hx => hok x (List.mem_cons_of_mem s hx))
      cases hfr : fetch s with
      | withClose cs =>
          have hne : dropna cs ≠ [] := hok s (List.mem_cons_self s rest) cs hfr
          have hns : ((dropna cs).getLast?).isSome := by
            rw [List.getLast?_isSome]
            exact hne
          obtain ⟨c, hc⟩ := Option.isSome_iff_exists.mp hns
          have hstep : symbol_step (fetch s)
              = Except.ok (latest_reversal_signal ((dropna cs).map some), some c) := by
            rw [hfr]
            simp [symbol_step, hc]
          have hdg : fetch_degraded (fetch s) = false := by
            rw [hfr]
            rfl
          refine ⟨(s, latest_reversal_signal ((dropna cs).map some)) :: sigs,
            (s, c) :: closes, warns, ?_, ?_, ?_, ?_, ?_⟩
          · simp only [fetch_loop, hstep, hloop, hdg, if_neg Bool.false_ne_true]
          · simp [hkeys]
          · intro p hp
            rcases List.mem_cons.mp hp with rfl | hp
            · exact ⟨cs, hfr, by simp [hc]⟩
            · exact hinv p hp
          · intro x hx hxdeg
            by_cases hxs : x = s
            · rw [hxs, hfr] at hxdeg
              exact absurd hxdeg (by simp [fetch_degraded])
            · have hxr : x ∈ rest := by
                rcases List.mem_cons.mp hx with h | h
                · exact absurd h hxs
                · exact h
              obtain ⟨h1, h2, h3⟩ := hdeg x hxr hxdeg
              refine ⟨?_, ?_, h3⟩
              · simp only [lookupD, if_neg hxs]
                exact h1
              · simp only [lookupD, if_neg hxs]
                exact h2
          · intro x hx cs2 hx2
            by_cases hxs : x = s
            · rw [hxs, hfr] at hx2
              obtain rfl := (FetchResult.withClose.inj hx2).symm
              rw [hxs]
              constructor
              · simp [lookupD]
              · simp only [lookupD, if_pos rfl]
                simp [hc]
            · have hxr : x ∈ rest := by
                rcases List.mem_cons.mp hx with h | h
                · exact absurd h hxs
                · exact h
              obtain ⟨h1, h2⟩ := hwc x hxr cs2 hx2
              constructor
              · simp only [lookupD, if_neg hxs]
                exact h1
              · simp only [lookupD, if_neg hxs]
                exact h2
      | fetchFailed =>
          have hstep : symbol_step (fetch s) = Except.ok (0, none) := by
            rw [hfr]
            rfl
          have hdg : fetch_degraded (fetch s) = true := by
            rw [hfr]
            rfl
          refine ⟨(s, 0) :: sigs, closes, s :: warns, ?_, ?_, hinv, ?_, ?_⟩
          · simp only [fetch_loop, hstep, hloop, hdg, if_pos]
          · simp [hkeys]
          · intro x hx hxdeg
            by_cases hxs : x = s
            · refine ⟨by simp [lookupD, hxs], ?_, by simp [hxs]⟩
              rw [hxs]
              refine lookupD_eq_of_forall_ne s 0 closes ?_
              intro p hp hps
              obtain ⟨cs2, hcs2, _⟩ := hinv p hp
              rw [hps, hfr] at hcs2
              exact FetchResult.noConfusion hcs2
            · have hxr : x ∈ rest := by
                rcases List.mem_cons.mp hx with h | h
                · exact absurd h hxs
                · exact h
              obtain ⟨h1, h2, h3⟩ := hdeg x hxr hxdeg
              exact ⟨by simpa [lookupD, if_neg hxs] using h1, h2, by simp [h3]⟩
          · intro x hx cs2 hx2
            by_cases hxs : x = s
            · rw [hxs, hfr] at hx2
              exact FetchResult.noConfusion hx2
            · have hxr : x ∈ rest := by
                rcases List.mem_cons.mp hx with h | h
                · exact absurd h hxs
                · exact h
              obtain ⟨h1, h2⟩ := hwc x hxr cs2 hx2
              exact ⟨by simpa [lookupD, if_neg hxs] using h1, h2⟩
      | noBars =>
          have hstep : symbol_step (fetch s) = Except.ok (0, none) := by
            rw [hfr]
            rfl
          have hdg : fetch_degraded (fetch s) = true := by
            rw [hfr]
            rfl
          refine ⟨(s, 0) :: sigs, closes, s :: warns, ?_, ?_, hinv, ?_, ?_⟩
          · simp only [fetch_loop, hstep, hloop, hdg, if_pos]
          · simp [hkeys]
          · intro x hx hxdeg
            by_cases hxs : x = s
            · refine ⟨by simp [lookupD, hxs], ?_, by simp [hxs]⟩
              rw [hxs]
              refine lookupD_eq_of_forall_ne s 0 closes ?_
              intro p hp hps
              obtain ⟨cs2, hcs2, _⟩ := hinv p hp
              rw [hps, hfr] at hcs2
              exact FetchResult.noConfusion hcs2
            · have hxr : x ∈ rest := by
                rcases List.mem_cons.mp hx with h | h
                · exact absurd h hxs
                · exact h
              obtain ⟨h1, h2, h3⟩ := hdeg x hxr hxdeg
              exact ⟨by simpa [lookupD, if_neg hxs] using h1, h2, by simp [h3]⟩
          · intro x hx cs2 hx2
            by_cases hxs : x = s
            · rw [hxs, hfr] at hx2
              exact FetchResult.noConfusion hx2
            · have hxr : x ∈ rest := by
                rcases List.mem_cons.mp hx with h | h
                · exact absurd h hxs
                · exact h
              obtain ⟨h1, h2⟩ := hwc x hxr cs2 hx2
              exact ⟨by simpa [lookupD, if_neg hxs] using h1, h2⟩
      | noCloseColumn =>
          have hstep : symbol_step (fetch s) = Except.ok (0, none) := by
            rw [hfr]
            rfl
          have hdg : fetch_degraded (fetch s) = true := by
            rw [hfr]
            rfl
          refine ⟨(s, 0) :: sigs, closes, s :: warns, ?_, ?_, hinv, ?_, ?_⟩
          · simp only [fetch_loop, hstep, hloop, hdg, if_pos]
          · simp [hkeys]
          · intro x hx hxdeg
            by_cases hxs : x = s
            · refine ⟨by simp [lookupD, hxs], ?_, by simp [hxs]⟩
              rw [hxs]
              refine lookupD_eq_of_forall_ne s 0 closes ?_
              intro p hp hps
              obtain ⟨cs2, hcs2, _⟩ := hinv p hp
              rw [hps, hfr] at hcs2
              exact FetchResult.noConfusion hcs2
            · have hxr : x ∈ rest := by
                rcases List.mem_cons.mp hx with h | h
                · exact absurd h hxs
                · exact h
              obtain ⟨h1, h2, h3⟩ := hdeg x hxr hxdeg
              exact ⟨by simpa [lookupD, if_neg hxs] using h1, h2, by simp [h3]⟩
          · intro x hx cs2 hx2
            by_cases hxs : x = s
            · rw [hxs, hfr] at hx2
              exact FetchResult.noConfusion hx2
            · have hxr : x ∈ rest := by
                rcases List.mem_cons.mp hx with h | h
                · exact absurd h hxs
                · exact h
              obtain ⟨h1, h2⟩ := hwc x hxr cs2 hx2
              exact ⟨by simpa [lookupD, if_neg hxs] using h1, h2⟩

/-- C9: in one live-loop iteration, every per-symbol data failure during
the price-window fetch (fetch returned nothing, no bars, or a missing
close column) degrades only that symbol to signal 0 and latest close 0
(the close dict has no entry, defaulted to 0) with the symbol warned
about, and the loop processes every universe symbol — it never aborts for
one degraded symbol (given each successful fetch has at least one
non-missing close, as otherwise the source raises an IndexError). -/
theorem claim_C9 (symbols : List String) (fetch : String → FetchResult)
    (hok : ∀ s ∈ symbols, ∀ cs, fetch s = FetchResult.withClose cs → dropna cs ≠ []) :
    ∃ sigs closes warns,
      fetch_loop symbols fetch = Except.ok (sigs, closes, warns)
      ∧ sigs.map Prod.fst = symbols
      ∧ (∀ s ∈ symbols, fetch_degraded (fetch s) = true →
          lookupD sigs s 1 = 0 ∧ lookupD closes s 0 = 0 ∧ s ∈ warns)
      ∧ (∀ s ∈ symbols, ∀ cs, fetch s = FetchResult.withClose cs →
          lookupD sigs s 1 = latest_reversal_signal ((dropna cs).map some)
          ∧ lookupD closes s 0 = ((dropna cs).getLast?).getD 0) := by
  obtain ⟨sigs, closes, warns, h1, h2, _, h4, h5⟩ := fetch_loop_ok fetch symbols hok
  exact ⟨sigs, closes, warns, h1, h2, h4, h5⟩

/-- C9 witness: the theorem applied to a one-symbol universe whose fetch
returns no bars. -/
theorem claim_C9_witness :
    ∃ sigs closes warns,
      fetch_loop ["AAA"] (fun _ => FetchResult.noBars) = Except.ok (sigs, closes, warns)
      ∧ sigs.map Prod.fst = ["AAA"]
      ∧ (∀ s ∈ ["AAA"], fetch_degraded ((fun _ => FetchResult.noBars) s) = true →
          lookupD sigs s 1 = 0 ∧ lookupD closes s 0 = 0 ∧ s ∈ warns)
      ∧ (∀ s ∈ ["AAA"], ∀ cs, (fun _ => FetchResult.noBars) s = FetchResult.withClose cs →
          lookupD sigs s 1 = latest_reversal_signal ((dropna cs).map some)
          ∧ lookupD closes s 0 = ((dropna cs).getLast?).getD 0) :=
  claim_C9 ["AAA"] (fun _ => FetchResult.noBars)
    (fun _ _ cs hcs => FetchResult.noConfusion hcs)

/-! ## C10: snapshot journal P&L -/

/-- C10: appending a snapshot row with portfolio value `v` writes blank
daily and running P&L when no prior row exists, otherwise daily P&L is `v`
minus the immediately preceding row's value and running P&L is `v` minus
the first row's value; with exactly two rows the second row's daily and
running P&L coincide. -/
theorem claim_C10 :
    (∀ v : ℚ, _append_snapshot_log [] v = ((none, none), [v]))
    ∧ (∀ (a : ℚ) (t : List ℚ) (v : ℚ),
        _append_snapshot_log (a :: t) v
          = ((some (v - ((a :: t).getLast?).getD 0), some (v - a)), (a :: t) ++ [v]))
    ∧ (∀ x v : ℚ,
        ((_append_snapshot_log ((_append_snapshot_log [] x).2) v).1).1
          = ((_append_snapshot_log ((_append_snapshot_log [] x).2) v).1).2) := by
  refine ⟨fun v => rfl, ?_, fun x v => rfl⟩
  intro a t v
  have hns : ((a :: t).getLast?).isSome := by
    rw [List.getLast?_isSome]
    exact List.cons_ne_nil a t
  obtain ⟨y, hy⟩ := Option.isSome_iff_exists.mp hns
  simp only [_append_snapshot_log, List.head?_cons, hy, Option.getD_some]

end TradingDesk
